import Mathlib

/-!
Verification of the Radium-Tech pairs-trading core.

Shallow embedding of `radium/pair/pair.py` and `radium/strategy/strategy.py`
(`radium/strategy/_returns.py` is the same realized-return engine).  Prices
are modelled as rationals; the two equities' closed-price series are taken
index-aligned on the pair's shared calendar, as the spec assumes throughout.
Pandas/NumPy "not available" (NaN) entries are modelled with `Option ℚ`
(`none` = the unavailable sentinel).  Exceptions raised by the source are
modelled by `Except` with the spec's error taxonomy naming the raise sites
(the source raises `ValueError` / bare `Exception` with messages).
-/

namespace Radium

/-- Integer truncation toward zero of a rational. -/
def truncInt (x : ℚ) : ℤ :=
  if 0 ≤ x then ⌊x⌋ else ⌈x⌉

/-- Modelled from the spec: `radium.helpers._truncate` is not in the sources;
the spec defines it as "truncate toward zero to N decimal places"
(sign-preserving, e.g. `truncate(1.2399, 2) == 1.23`,
`truncate(-1.2399, 2) == -1.23`). -/
def _truncate (x : ℚ) (n : ℕ) : ℚ :=
  (truncInt (x * 10 ^ n) : ℚ) / 10 ^ n

/-- Slope of the ordinary-least-squares regression of `ys` on `xs` with
intercept, as fitted by `sm.ols(formula, df_lookback).fit().params[1]` in
`Pair._hedge_ols`.  On a window whose predictor has zero variance the source's
float fit is non-finite (NaN); rational division by zero returns 0 here, and
every claim is settled on windows where the denominator is nonzero wherever
the slope's value matters. -/
def olsSlope (xs ys : List ℚ) : ℚ :=
  let n : ℚ := xs.length
  let sx := xs.sum
  let sy := ys.sum
  let sxy := (List.zipWith (· * ·) xs ys).sum
  let sxx := (xs.map (fun x => x * x)).sum
  (n * sxy - sx * sy) / (n * sxx - sx * sx)

/-- The imperative write loop shared by `Pair._hedge_ols` and
`Strategy.returns`: starting from `base` (a zero matrix in the source),
for `i` in `range(a, a+m)` set row `i - off` to `f i`. -/
def fillRows (f : ℕ → ℚ × ℚ) (a m off : ℕ) (base : List (ℚ × ℚ)) : List (ℚ × ℚ) :=
  (List.range' a m).foldl (fun acc i => acc.set (i - off) (f i)) base

/-- `Pair._hedge_ols`: builds a zero matrix shaped like the aligned close
matrix, then for each `i` in `range(lookback, n)` regresses equity1's close
(response) on equity2's close (predictor) over the window `df[(i-lookback):i]`
and writes `[1, -slope]` at row `i - 1`. -/
def _hedge_ols (c1 c2 : List ℚ) (lookback : ℕ) : List (ℚ × ℚ) :=
  fillRows
    (fun i => (1, -olsSlope ((c2.drop (i - lookback)).take lookback)
                            ((c1.drop (i - lookback)).take lookback)))
    lookback (c1.length - lookback) 1
    (List.replicate c1.length (0, 0))

/-- The spec's error taxonomy, naming the source's raise sites: the source
raises `ValueError` in `Pair.__init__` (no shared date range) and in
`Pair.hedge` (bad lookback / unknown method), and a bare `Exception` in
`Pair.price_spread` (hedge ratios not yet defined). -/
inductive Err where
  | IncompatibleRangeError
  | InvalidParameterError
  | UnsupportedMethodError
  | PrecedenceError
deriving DecidableEq, Repr

/-- `Pair.__init__` date reconciliation: `start_date` is the later of the two
equities' start dates, `end_date` the earlier of the two end dates, and the
constructor raises when `end_date <= start_date`.  Dates are modelled as
integers (day numbers); only their order matters to the source. -/
def mkPairDates (s1 e1 s2 e2 : ℤ) : Except Err (ℤ × ℤ) :=
  let s := if s1 ≥ s2 then s1 else s2
  let e := if e1 ≤ e2 then e1 else e2
  if e ≤ s then Except.error Err.IncompatibleRangeError
  else Except.ok (s, e)

/-- Mutable state of one `Pair` object: the aligned closed-price series of the
two equities (immutable), the `hedge_ratios` attribute (absent until `hedge`
assigns it) and the `_price_spread` cache attribute (absent until the
`price_spread` property first computes it).  Attribute absence
(`hasattr == False`) is modelled by `none`. -/
structure PairState where
  c1 : List ℚ
  c2 : List ℚ
  hedge_ratios : Option (List (ℚ × ℚ))
  price_spread_cache : Option (List ℚ)
deriving DecidableEq, Repr

/-- A freshly constructed pair: neither `hedge_ratios` nor `_price_spread`
exists yet. -/
def initPair (c1 c2 : List ℚ) : PairState :=
  ⟨c1, c2, none, none⟩

/-- `Pair.hedge(method, lookback)`: validates `lookback > 0`, dispatches on
the method string, and stores `_hedge_ols(lookback)` into `hedge_ratios`.
No other attribute is touched (in particular the `_price_spread` cache is
left as it was). -/
def hedge (s : PairState) (method : String) (lookback : ℤ) : Except Err PairState :=
  if lookback ≤ 0 then Except.error Err.InvalidParameterError
  else if method = "OLS" then
    Except.ok { s with hedge_ratios := some (_hedge_ols s.c1 s.c2 lookback.toNat) }
  else Except.error Err.UnsupportedMethodError

/-- Row-wise spread `np.sum(self.hedge_ratios * prices, axis=1)`:
`h1*close1 + h2*close2` per date. -/
def spreadOf (hr : List (ℚ × ℚ)) (c1 c2 : List ℚ) : List ℚ :=
  List.zipWith (fun h c => h.1 * c.1 + h.2 * c.2) hr (c1.zip c2)

/-- The `Pair.price_spread` property: raises before touching any state when
`hedge_ratios` is absent; otherwise computes and caches the spread on first
read, and returns the cached `_price_spread` unchanged on later reads. -/
def price_spread (s : PairState) : Except Err (List ℚ × PairState) :=
  match s.hedge_ratios with
  | none => Except.error Err.PrecedenceError
  | some hr =>
    match s.price_spread_cache with
    | some sp => Except.ok (sp, s)
    | none =>
      let sp := spreadOf hr s.c1 s.c2
      Except.ok (sp, { s with price_spread_cache := some sp })

/-- `Pair.budget(hedge_ratio, dec)` after its type/length validation (the
2-vector and `dec ≥ 0` are enforced by the types here): truncate each ratio
to `dec` places, then `price1 * |t1| * 10^dec + price2 * |t2| * 10^dec`,
truncated to 2 decimal places.  `c1last`, `c2last` are
`equity{1,2}.closed.iloc[-1]`, the most recent closes. -/
def budget (c1last c2last : ℚ) (hedge_ratio : ℚ × ℚ) (dec : ℕ) : ℚ :=
  let t1 := _truncate hedge_ratio.1 dec
  let t2 := _truncate hedge_ratio.2 dec
  _truncate (c1last * |t1| * 10 ^ dec + c2last * |t2| * 10 ^ dec) 2

/-- The budget pipeline exactly as the claim's general sentence words it
(truncate each component, scale by `10^dec`, multiply by the most recent
close, sum, truncate to 2 places — with no absolute value), kept as a
separate definition to compare with `budget` above. -/
def budget_claim (c1last c2last : ℚ) (hedge_ratio : ℚ × ℚ) (dec : ℕ) : ℚ :=
  _truncate (c1last * _truncate hedge_ratio.1 dec * 10 ^ dec
             + c2last * _truncate hedge_ratio.2 dec * 10 ^ dec) 2

/-- The position-rounding loop of `Strategy.returns`: a zero matrix shaped
like `positions()`, with rows `i` in `range(self.lookback, n - 1)` set to
`truncate(optimal_positions[i], 3) * 10**3` componentwise. -/
def roundedPositions (pos : List (ℚ × ℚ)) (lookback : ℕ) : List (ℚ × ℚ) :=
  fillRows
    (fun i =>
      let p := pos.getD i (0, 0)
      (_truncate p.1 3 * 10 ^ 3, _truncate p.2 3 * 10 ^ 3))
    lookback (pos.length - 1 - lookback) 0
    (List.replicate pos.length (0, 0))

/-- `np.append(0, np.diff(xs))`: a leading forced-zero order followed by the
day-over-day differences of the rounded positions. -/
def ordersOf (xs : List ℚ) : List ℚ :=
  0 :: List.zipWith (fun prev cur => cur - prev) xs.dropLast xs.tail

/-- The per-order commission of `Strategy.returns`:
`max(abs(x) * 0.0035, 0.35) if x != 0 else 0`. -/
def commission (x : ℚ) : ℚ :=
  if x ≠ 0 then max (|x| * 0.0035) 0.35 else 0

/-- `Strategy.returns` (identical to `radium/strategy/_returns.py`): round the
optimal positions, difference them into orders, price the commissions, start
the running budget at the initial budget (1000 units of each equity at the
first close) truncated to 2 places, apply every order but the last date's to
the budget, and return `budget / init_budget - 1` — dividing by the
*untruncated* initial budget.  The source's float division by a zero
`init_budget` would raise; rational division returns 0, and the claims are
settled with positive prices where it matters. -/
def returnsCalc (pos : List (ℚ × ℚ)) (c1 c2 : List ℚ) (lookback : ℕ) : ℚ :=
  let rp := roundedPositions pos lookback
  let o1 := ordersOf (rp.map Prod.fst)
  let o2 := ordersOf (rp.map Prod.snd)
  let comm1 := o1.map commission
  let comm2 := o2.map commission
  let init_budget := 1000 * (c1.headD 0 + c2.headD 0)
  let b0 := _truncate init_budget 2
  let final := (List.range (o1.length - 1)).foldl
    (fun b i =>
      b + (-1) * o1.getD i 0 * c1.getD i 0 - comm1.getD i 0
        + (-1) * o2.getD i 0 * c2.getD i 0 - comm2.getD i 0) b0
  final / init_budget - 1

/-- NaN-propagating addition (`none` is the unavailable/NaN sentinel). -/
def madd : Option ℚ → Option ℚ → Option ℚ
  | some a, some b => some (a + b)
  | _, _ => none

/-- NaN-propagating multiplication. -/
def mmul : Option ℚ → Option ℚ → Option ℚ
  | some a, some b => some (a * b)
  | _, _ => none

/-- NaN-propagating subtraction. -/
def msub : Option ℚ → Option ℚ → Option ℚ
  | some a, some b => some (a - b)
  | _, _ => none

/-- NaN-propagating division.  In the source's float arithmetic `0/0` is NaN
and `q/0` (`q ≠ 0`) is ±infinity; in `th_returns` a zero denominator forces a
zero or NaN numerator (the denominator is the sum of the absolute previous
allocations), so the infinite case is unreachable and every non-finite result
is modelled as the sentinel. -/
def mdiv : Option ℚ → Option ℚ → Option ℚ
  | some a, some b => if b = 0 then none else some (a / b)
  | _, _ => none

/-- `pandas.shift()`: drop the last row and prepend one unavailable row. -/
def shiftOpt : List (ℚ × ℚ) → List (Option (ℚ × ℚ))
  | [] => []
  | x :: xs => none :: ((x :: xs).dropLast.map some)

/-- `pandas.pct_change()` on one close column: unavailable first entry, then
`cur/prev - 1`.  A zero previous close gives a non-finite float in the source
(prices are positive per the spec); modelled as the sentinel. -/
def pctChange (c : List ℚ) : List (Option ℚ) :=
  match c with
  | [] => []
  | _ :: _ =>
    none :: List.zipWith (fun prev cur => if prev = 0 then none else some (cur / prev - 1))
      c.dropLast c.tail

/-- `Strategy.th_returns`: capital allocation per date
(`optimal_positions * closes`), P&L per date as previous-day allocation times
percent change summed over the two equities (NaN propagating, as NumPy array
arithmetic does), total position as the pandas NaN-skipping sum of absolute
previous-day allocations (`0` on the all-NaN first row), and the per-date
return `pnl / total_position`. -/
def th_returns (pos : List (ℚ × ℚ)) (c1 c2 : List ℚ) : List (Option ℚ) :=
  let al := List.zipWith (fun p c => (p.1 * c.1, p.2 * c.2)) pos (c1.zip c2)
  let sh := shiftOpt al
  let pnl := List.zipWith
    (fun a pc => madd (mmul (a.map Prod.fst) pc.1) (mmul (a.map Prod.snd) pc.2))
    sh ((pctChange c1).zip (pctChange c2))
  let total := sh.map (fun a => match a with | none => (0 : ℚ) | some v => |v.1| + |v.2|)
  List.zipWith (fun p t => mdiv p (some t)) pnl total

/-- `np.cumprod` on the pandas Series `1 + ret`: NumPy's `_wrapfunc`
dispatches to the bound `Series.cumprod`, which runs with `skipna=True` — an
unavailable entry stays unavailable at its own position but is masked out of
the accumulation (treated as 1), so it does not propagate into later running
products.  Called with the accumulator `acc = 1`. -/
def cumprodM : List (Option ℚ) → ℚ → List (Option ℚ)
  | [], _ => []
  | none :: xs, acc => none :: cumprodM xs acc
  | some v :: xs, acc => some (acc * v) :: cumprodM xs (acc * v)

/-- `fillna(method='ffill')`: replace each unavailable entry by the last
available value seen so far (entries before any available value stay
unavailable). -/
def ffill : List (Option ℚ) → Option ℚ → List (Option ℚ)
  | [], _ => []
  | some v :: xs, _ => some v :: ffill xs (some v)
  | none :: xs, last => last :: ffill xs last

/-- `Strategy.cum_returns`: `np.cumprod(1 + ret) - 1` over the theoretical
returns (Series cumprod, skipna — see `cumprodM`), then
`fillna(method='ffill')`. -/
def cum_returns (pos : List (ℚ × ℚ)) (c1 c2 : List ℚ) : List (Option ℚ) :=
  let ret := th_returns pos c1 c2
  ffill ((cumprodM (ret.map (fun r => madd (some 1) r)) 1).map
    (fun x => msub x (some 1))) none

/-- Product of the available entries of a list (an unavailable entry
contributes nothing): the value `Series.cumprod(skipna=True)` accumulates. -/
def prodA : List (Option ℚ) → ℚ
  | [] => 1
  | none :: xs => prodA xs
  | some v :: xs => v * prodA xs

/-- The claim's "running product `Π(1+r)` taken over the available entries"
of a theoretical-return prefix. -/
def availProd : List (Option ℚ) → ℚ
  | [] => 1
  | none :: xs => availProd xs
  | some r :: xs => (1 + r) * availProd xs

/-- The state reached by `estimate("OLS", 2)` on closes `[1,2,4,8]` and
`[1,2,3,4]`. -/
def stalePair1 : PairState :=
  ⟨[1, 2, 4, 8], [1, 2, 3, 4], some [(0, 0), (1, -1), (1, -2), (0, 0)], none⟩

/-- `stalePair1` after the spread has been read once (spread cached). -/
def stalePair2 : PairState :=
  { stalePair1 with price_spread_cache := some [0, 0, -2, 0] }

/-- `stalePair2` after `estimate("OLS", 3)`: the hedge ratios are replaced but
the cached spread of the old hedge ratios survives. -/
def stalePair3 : PairState :=
  { stalePair2 with hedge_ratios := some [(0, 0), (0, 0), (1, -(3 / 2)), (0, 0)] }

theorem fillRows_zero (f : ℕ → ℚ × ℚ) (a off : ℕ) (base : List (ℚ × ℚ)) :
    fillRows f a 0 off base = base := rfl

theorem fillRows_succ (f : ℕ → ℚ × ℚ) (a m off : ℕ) (base : List (ℚ × ℚ)) :
    fillRows f a (m + 1) off base =
      (fillRows f a m off base).set (a + m - off) (f (a + m)) := by
  unfold fillRows
  rw [List.range'_concat, List.foldl_append, List.foldl_cons, List.foldl_nil,
    Nat.one_mul]

theorem fillRows_length (f : ℕ → ℚ × ℚ) (a m off : ℕ) (base : List (ℚ × ℚ)) :
    (fillRows f a m off base).length = base.length := by
  induction m with
  | zero => rfl
  | succ m ih => rw [fillRows_succ, List.length_set, ih]

/-- Characterisation of the write loop: position `j` holds `f (j + off)` when
some iteration wrote it, and the base entry otherwise. -/
theorem fillRows_getElem? (f : ℕ → ℚ × ℚ) (a m off : ℕ) (base : List (ℚ × ℚ))
    (hoff : off ≤ a) (j : ℕ) :
    (fillRows f a m off base)[j]? =
      if a ≤ j + off ∧ j + off < a + m ∧ j < base.length then some (f (j + off))
      else base[j]? := by
  induction m with
  | zero =>
      rw [fillRows_zero, if_neg]
      omega
  | succ m ih =>
      rw [fillRows_succ, List.getElem?_set]
      rcases Nat.lt_or_ge (j + off) (a + m) with hlt | hge
      · rw [if_neg (by omega), ih]
        by_cases hj : a ≤ j + off ∧ j + off < a + m ∧ j < base.length
        · rw [if_pos hj, if_pos ⟨hj.1, by omega, hj.2.2⟩]
        · rw [if_neg hj, if_neg (by omega)]
      · rcases Nat.lt_or_ge (j + off) (a + m + 1) with heq | hbig
        · have hj : a + m - off = j := by omega
          rw [if_pos hj, fillRows_length, hj]
          by_cases hjl : j < base.length
          · rw [if_pos hjl, if_pos ⟨by omega, by omega, hjl⟩]
            have : j + off = a + m := by omega
            rw [this]
          · rw [if_neg hjl, if_neg (by omega)]
            exact (List.getElem?_eq_none (by omega)).symm
        · rw [if_neg (by omega), ih, if_neg (by omega), if_neg (by omega)]

theorem truncInt_zero : truncInt 0 = 0 := by
  simp [truncInt]

theorem truncInt_intCast (k : ℤ) : truncInt (k : ℚ) = k := by
  unfold truncInt
  split_ifs <;> simp

theorem truncInt_abs (x : ℚ) : truncInt |x| = |truncInt x| := by
  unfold truncInt
  rw [if_pos (abs_nonneg x)]
  rcases le_or_lt 0 x with hx | hx
  · rw [abs_of_nonneg hx, if_pos hx]
    exact (abs_of_nonneg (Int.floor_nonneg.mpr hx)).symm
  · rw [abs_of_neg hx, if_neg (not_le.mpr hx), Int.floor_neg]
    have hc : ⌈x⌉ ≤ 0 := Int.ceil_le.mpr (by exact_mod_cast hx.le)
    rw [abs_of_nonpos hc]

theorem _truncate_zero (n : ℕ) : _truncate 0 n = 0 := by
  simp [_truncate, truncInt_zero]

theorem _truncate_abs (x : ℚ) (n : ℕ) : _truncate |x| n = |_truncate x n| := by
  unfold _truncate
  have h10 : (0 : ℚ) ≤ 10 ^ n := by positivity
  rw [show |x| * (10 : ℚ) ^ n = |x * 10 ^ n| from by rw [abs_mul, abs_of_nonneg h10],
    truncInt_abs, Int.cast_abs, abs_div, abs_of_nonneg h10]

/-- Evaluation helper: truncation of a nonnegative value via floor bounds. -/
theorem truncInt_nonneg_eq {x : ℚ} {k : ℤ} (hk : 0 ≤ k) (h1 : (k : ℚ) ≤ x)
    (h2 : x < k + 1) : truncInt x = k := by
  have hx : (0 : ℚ) ≤ x := le_trans (by exact_mod_cast hk) h1
  unfold truncInt
  rw [if_pos hx]
  exact Int.floor_eq_iff.mpr ⟨h1, h2⟩

/-- Evaluation helper: truncation of a negative value via ceiling bounds. -/
theorem truncInt_neg_eq {x : ℚ} {k : ℤ} (hx : x < 0) (h1 : (k : ℚ) - 1 < x)
    (h2 : x ≤ k) : truncInt x = k := by
  unfold truncInt
  rw [if_neg (not_le.mpr hx)]
  exact Int.ceil_eq_iff.mpr ⟨h1, h2⟩

theorem _truncate_eval_nonneg (x : ℚ) (n : ℕ) (k : ℤ) (hk : 0 ≤ k)
    (h1 : (k : ℚ) ≤ x * 10 ^ n) (h2 : x * 10 ^ n < k + 1) :
    _truncate x n = (k : ℚ) / 10 ^ n := by
  unfold _truncate
  rw [truncInt_nonneg_eq hk h1 h2]

theorem _truncate_eval_neg (x : ℚ) (n : ℕ) (k : ℤ) (hx : x * 10 ^ n < 0)
    (h1 : (k : ℚ) - 1 < x * 10 ^ n) (h2 : x * 10 ^ n ≤ k) :
    _truncate x n = (k : ℚ) / 10 ^ n := by
  unfold _truncate
  rw [truncInt_neg_eq hx h1 h2]

theorem _truncate_int_div_100 (k : ℤ) : _truncate ((k : ℚ) / 100) 2 = (k : ℚ) / 100 := by
  unfold _truncate
  have h : ((k : ℚ) / 100) * 10 ^ 2 = (k : ℚ) := by
    rw [show ((10 : ℚ) ^ 2) = 100 by norm_num]
    exact div_mul_cancel₀ _ (by norm_num)
  rw [h, truncInt_intCast]
  rw [show ((10 : ℚ) ^ 2) = 100 by norm_num]

/-- C8: `Pair.__init__` resolves `start_date = max(start1, start2)` and
`end_date = min(end1, end2)`, raises exactly when the resolved
`end_date <= start_date`, and every successfully constructed pair satisfies
`end_date > start_date`. -/
theorem pair_init_date_reconciliation (s1 e1 s2 e2 : ℤ) :
    (mkPairDates s1 e1 s2 e2 = Except.error Err.IncompatibleRangeError ↔
      min e1 e2 ≤ max s1 s2) ∧
    (∀ p, mkPairDates s1 e1 s2 e2 = Except.ok p →
      p.1 = max s1 s2 ∧ p.2 = min e1 e2 ∧ p.1 < p.2) := by
  simp only [mkPairDates, ge_iff_le, max_def, min_def]
  refine ⟨?_, ?_⟩ <;> split_ifs <;> (try simp_all) <;> omega

theorem pair_init_date_reconciliation_witness :
    ((2 : ℤ), (8 : ℤ)).1 = max 0 2 ∧ ((2 : ℤ), (8 : ℤ)).2 = min 10 8 ∧
      ((2 : ℤ), (8 : ℤ)).1 < ((2 : ℤ), (8 : ℤ)).2 :=
  (pair_init_date_reconciliation 0 10 2 8).2 (2, 8) rfl

/-- C9 (counterexample): the claim's general pipeline — truncate each signed
component, scale, multiply by the closes, sum, truncate — disagrees with
`Pair.budget` on the claim's own fixture `[1.0, -0.5]`, `dec = 2`, closes
`[100.0, 50.0]`: the source takes the absolute value of each truncated
component (12500.00), the signed pipeline gives 7500.00. -/
theorem budget_fixture_ratio1_eval : _truncate (1 : ℚ) 2 = 1 := by
  rw [_truncate_eval_nonneg 1 2 100 (by norm_num) (by norm_num) (by norm_num)]
  norm_num

theorem budget_fixture_ratio2_eval : _truncate (-(1 / 2) : ℚ) 2 = -(1 / 2) := by
  rw [_truncate_eval_neg (-(1 / 2)) 2 (-50) (by norm_num) (by norm_num) (by norm_num)]
  norm_num

theorem budget_fixture_eval : budget 100 50 (1, -(1 / 2)) 2 = 12500 := by
  simp only [budget, budget_fixture_ratio1_eval, budget_fixture_ratio2_eval]
  rw [abs_one, show |(-(1 / 2) : ℚ)| = 1 / 2 from by
      rw [abs_neg]
      exact abs_of_nonneg (by norm_num)]
  rw [show (100 : ℚ) * 1 * 10 ^ 2 + 50 * (1 / 2) * 10 ^ 2 = 12500 by norm_num]
  rw [_truncate_eval_nonneg 12500 2 1250000 (by norm_num) (by norm_num) (by norm_num)]
  norm_num

theorem budget_claim_fixture_eval : budget_claim 100 50 (1, -(1 / 2)) 2 = 7500 := by
  simp only [budget_claim, budget_fixture_ratio1_eval, budget_fixture_ratio2_eval]
  rw [show (100 : ℚ) * 1 * 10 ^ 2 + 50 * -(1 / 2) * 10 ^ 2 = 7500 by norm_num]
  rw [_truncate_eval_nonneg 7500 2 750000 (by norm_num) (by norm_num) (by norm_num)]
  norm_num

theorem budget_signed_formula_counterexample :
    budget 100 50 (1, -(1 / 2)) 2 ≠ budget_claim 100 50 (1, -(1 / 2)) 2 ∧
    budget 100 50 (1, -(1 / 2)) 2 = 12500 ∧
    budget_claim 100 50 (1, -(1 / 2)) 2 = 7500 := by
  refine ⟨?_, budget_fixture_eval, budget_claim_fixture_eval⟩
  rw [budget_fixture_eval, budget_claim_fixture_eval]
  norm_num

/-- C9 (amended): `Pair.budget` truncates each ratio component toward zero to
`dec` places, takes the absolute value of each truncated component, scales by
`10^dec`, multiplies by the most recent close of each instrument, sums, and
truncates to 2 decimal places; equivalently it is the claim's pipeline applied
to the componentwise absolute values.  On the fixture `[1.0, -0.5]`, `dec = 2`,
closes `[100.0, 50.0]` it equals `100*1*100 + 50*0.5*100 = 12500.00`. -/
theorem budget_abs_truncated_components (c1last c2last r1 r2 : ℚ) (dec : ℕ) :
    budget c1last c2last (r1, r2) dec = budget_claim c1last c2last (|r1|, |r2|) dec ∧
    budget 100 50 (1, -(1 / 2)) 2 = 12500 := by
  constructor
  · unfold budget budget_claim
    rw [_truncate_abs r1 dec, _truncate_abs r2 dec]
  · exact budget_fixture_eval

/-- C1 (counterexample): `estimate("OLS", 2)` on the 3-row series
`closes1 = [1,2,3]`, `closes2 = [1,3,5]` assigns `[1, -1/2]` at row 1, whose
index `1 < lookback = 2`, so not every row with index `< lookback` is the
zero vector. -/
theorem hedge_warmup_row_written_counterexample :
    hedge (initPair [1, 2, 3] [1, 3, 5]) "OLS" 2 =
      Except.ok ⟨[1, 2, 3], [1, 3, 5], some [(0, 0), (1, -(1 / 2)), (0, 0)], none⟩ ∧
    ((1 : ℚ), -(1 / 2 : ℚ)) ≠ ((0 : ℚ), (0 : ℚ)) ∧ (1 : ℕ) < 2 := by
  refine ⟨?_, by norm_num [Prod.ext_iff], by norm_num⟩
  simp [hedge, initPair, _hedge_ols, fillRows, olsSlope, List.range']
  norm_num

/-- C1 (amended): rows of the `_hedge_ols` output with index strictly less
than `lookback - 1` are exactly the zero vector; row `lookback - 1` is the
first row the loop writes (it receives the window ending just before index
`lookback`, per the documented `i - 1` assignment). -/
theorem hedge_ols_rows_before_lookback_minus_one_zero (c1 c2 : List ℚ)
    (lookback j : ℕ) (hL : 0 < lookback) (hj : j + 1 < lookback)
    (hlen : j < c1.length) :
    (_hedge_ols c1 c2 lookback)[j]? = some (0, 0) := by
  unfold _hedge_ols
  rw [fillRows_getElem? _ _ _ _ _ (by omega) j, if_neg (by omega),
    List.getElem?_replicate, if_pos hlen]

theorem hedge_ols_rows_before_lookback_minus_one_zero_witness :
    (_hedge_ols [1, 2, 3] [1, 3, 5] 3)[0]? = some (0, 0) :=
  hedge_ols_rows_before_lookback_minus_one_zero [1, 2, 3] [1, 3, 5] 3 0
    (by decide) (by decide) (by decide)

/-- C5: for every index `i` with `lookback ≤ i < n`, `_hedge_ols` regresses
equity1's close on equity2's close over exactly the trailing window
`[i - lookback, i)` and stores `[1, -β]` at row `i - 1`, not at row `i`. -/
theorem hedge_ols_window_alignment (c1 c2 : List ℚ) (lookback i : ℕ)
    (hL : 0 < lookback) (hiL : lookback ≤ i) (hin : i < c1.length) :
    (_hedge_ols c1 c2 lookback)[i - 1]? =
      some (1, -olsSlope ((c2.drop (i - lookback)).take lookback)
                         ((c1.drop (i - lookback)).take lookback)) := by
  unfold _hedge_ols
  rw [fillRows_getElem? _ _ _ _ _ (by omega) (i - 1),
    if_pos ⟨by omega, by omega, by rw [List.length_replicate]; omega⟩]
  have h : i - 1 + 1 = i := by omega
  rw [h]

theorem hedge_ols_window_alignment_witness :
    (_hedge_ols [1, 2, 3] [1, 3, 5] 2)[1]? =
      some (1, -olsSlope [1, 3] [1, 2]) :=
  hedge_ols_window_alignment [1, 2, 3] [1, 3, 5] 2 2 (by decide) (by decide)
    (by decide)

/-- C2 (code evaluated at the failing input): after `estimate("OLS", 2)`, a
spread read, and a recomputation `estimate("OLS", 3)`, the `price_spread`
property returns the cached spread `[0, 0, -2, 0]` computed from the *old*
hedge ratios, while the spread of the just-recomputed hedge ratios is
`[0, 0, -1/2, 0]`: `hedge` never invalidates the `_price_spread` cache, so a
stale spread is reachable. -/
theorem price_spread_stale_after_rehedge :
    hedge (initPair [1, 2, 4, 8] [1, 2, 3, 4]) "OLS" 2 = Except.ok stalePair1 ∧
    price_spread stalePair1 = Except.ok ([0, 0, -2, 0], stalePair2) ∧
    hedge stalePair2 "OLS" 3 = Except.ok stalePair3 ∧
    price_spread stalePair3 = Except.ok ([0, 0, -2, 0], stalePair3) ∧
    spreadOf [(0, 0), (0, 0), (1, -(3 / 2)), (0, 0)] [1, 2, 4, 8] [1, 2, 3, 4] =
      [0, 0, -(1 / 2), 0] ∧
    ([0, 0, -2, 0] : List ℚ) ≠ [0, 0, -(1 / 2), 0] := by
  refine ⟨?_, ?_, ?_, rfl, ?_, ?_⟩
  · simp [hedge, initPair, stalePair1, _hedge_ols, fillRows, olsSlope, List.range']
    norm_num
  · simp [price_spread, stalePair1, stalePair2, spreadOf]
    norm_num
  · simp [hedge, stalePair1, stalePair2, stalePair3, _hedge_ols, fillRows, olsSlope,
      List.range']
    norm_num
  · simp [spreadOf]
    norm_num
  · simp
    norm_num

/-- C6: reading `price_spread` on a freshly constructed pair (before any
hedge-ratio estimation) fails with the precedence error, mutating nothing —
the raise happens before any attribute is assigned; after a successful
`hedge("OLS", lookback)` from that state, the returned spread holds, at every
date, exactly `h1*close1 + h2*close2` with the hedge vector assigned to that
date. -/
theorem price_spread_precedence_and_pointwise (c1 c2 : List ℚ) (L : ℤ)
    (hL : 0 < L) :
    price_spread (initPair c1 c2) = Except.error Err.PrecedenceError ∧
    ∀ s, hedge (initPair c1 c2) "OLS" L = Except.ok s →
      price_spread s =
        Except.ok (spreadOf (_hedge_ols c1 c2 L.toNat) c1 c2,
          ⟨c1, c2, some (_hedge_ols c1 c2 L.toNat),
            some (spreadOf (_hedge_ols c1 c2 L.toNat) c1 c2)⟩) ∧
      ∀ (j : ℕ) (h : ℚ × ℚ) (p1 p2 : ℚ),
        (_hedge_ols c1 c2 L.toNat)[j]? = some h →
        c1[j]? = some p1 → c2[j]? = some p2 →
        (spreadOf (_hedge_ols c1 c2 L.toNat) c1 c2)[j]? =
          some (h.1 * p1 + h.2 * p2) := by
  refine ⟨rfl, ?_⟩
  intro s hs
  have hL' : ¬ L ≤ 0 := by omega
  unfold hedge at hs
  rw [if_neg hL', if_pos rfl] at hs
  have hsval : ({ initPair c1 c2 with
      hedge_ratios := some (_hedge_ols c1 c2 L.toNat) } : PairState) = s :=
    (Except.ok.injEq _ _).mp hs
  subst hsval
  refine ⟨rfl, ?_⟩
  intro j h p1 p2 hh hc1 hc2
  unfold spreadOf
  rw [List.getElem?_zipWith_eq_some]
  exact ⟨h, (p1, p2), hh, List.getElem?_zip_eq_some.mpr ⟨hc1, hc2⟩, rfl⟩

theorem price_spread_precedence_and_pointwise_witness :
    (spreadOf (_hedge_ols [1, 2, 3] [1, 3, 5] 2) [1, 2, 3] [1, 3, 5])[1]? =
      some ((1 : ℚ) * 2 + -(1 / 2) * 3) :=
  ((price_spread_precedence_and_pointwise [1, 2, 3] [1, 3, 5] 2 (by norm_num)).2
    ⟨[1, 2, 3], [1, 3, 5], some (_hedge_ols [1, 2, 3] [1, 3, 5] 2), none⟩ rfl).2
    1 (1, -(1 / 2)) 2 3
    (by simp [_hedge_ols, fillRows, olsSlope, List.range']; norm_num) rfl rfl

theorem commission_of_ne_zero (x : ℚ) (hx : x ≠ 0) :
    commission x = max (|x| * 0.0035) 0.35 := by
  unfold commission
  rw [if_pos hx]

theorem commission_zero_eval : commission 0 = 0 := by
  unfold commission
  rw [if_neg (by norm_num)]

/-- C7: in the realized-return engine the commission for a non-zero order `q`
is exactly `max(|q| * 0.0035, 0.35)` and a zero order costs exactly `0`; an
order of 50 costs 0.35, an order of 200 costs 0.70. -/
theorem commission_model (q : ℚ) :
    (q ≠ 0 → commission q = max (|q| * 0.0035) 0.35) ∧
    (q = 0 → commission q = 0) ∧
    commission 50 = 0.35 ∧ commission 200 = 0.70 ∧ commission 0 = 0 := by
  refine ⟨commission_of_ne_zero q, fun hq => by rw [hq]; exact commission_zero_eval,
    ?_, ?_, commission_zero_eval⟩
  · rw [commission_of_ne_zero 50 (by norm_num),
      abs_of_nonneg (by norm_num : (0 : ℚ) ≤ 50),
      show (50 : ℚ) * 0.0035 = 0.175 by norm_num,
      max_eq_right (by norm_num)]
  · rw [commission_of_ne_zero 200 (by norm_num),
      abs_of_nonneg (by norm_num : (0 : ℚ) ≤ 200),
      show (200 : ℚ) * 0.0035 = 0.70 by norm_num,
      max_eq_left (by norm_num)]

theorem commission_model_witness :
    commission (-7) = max (|(-7 : ℚ)| * 0.0035) 0.35 :=
  (commission_model (-7)).1 (by norm_num)

theorem getD_replicate_zero (m i : ℕ) : (List.replicate m ((0 : ℚ), (0 : ℚ))).getD i (0, 0) = (0, 0) := by
  rw [List.getD_eq_getElem?_getD, List.getElem?_replicate]
  split_ifs <;> rfl

theorem roundedPositions_replicate_zero (n lb : ℕ) :
    roundedPositions (List.replicate n ((0 : ℚ), (0 : ℚ))) lb =
      List.replicate n (0, 0) := by
  apply List.ext_getElem?
  intro j
  unfold roundedPositions
  rw [List.length_replicate, fillRows_getElem? _ _ _ _ _ (Nat.zero_le _) j]
  split_ifs with hc
  · rw [List.getElem?_replicate, if_pos (by
      rw [List.length_replicate] at hc
      omega)]
    simp only [getD_replicate_zero, _truncate_zero, zero_mul]
  · rfl

theorem zipWith_diff_replicate_zero (m : ℕ) :
    List.zipWith (fun prev cur => cur - prev) (List.replicate m ((0 : ℚ)))
      (List.replicate m 0) = List.replicate m 0 := by
  induction m with
  | zero => rfl
  | succ m ih =>
    rw [List.replicate_succ, List.zipWith_cons_cons, ih, sub_zero]

theorem ordersOf_replicate_zero (n : ℕ) :
    ordersOf (List.replicate n (0 : ℚ)) = 0 :: List.replicate (n - 1) 0 := by
  unfold ordersOf
  congr 1
  cases n with
  | zero => rfl
  | succ m =>
    rw [List.replicate_succ]
    rw [show ((0 : ℚ) :: List.replicate m 0).dropLast = List.replicate m 0 from by
        rw [← List.replicate_succ, List.dropLast_replicate, Nat.add_sub_cancel]]
    rw [List.tail_cons, zipWith_diff_replicate_zero, Nat.add_sub_cancel]

theorem getD_zero_cons_replicate_zero (m i : ℕ) :
    ((0 : ℚ) :: List.replicate m 0).getD i 0 = 0 := by
  rw [List.getD_eq_getElem?_getD, ← List.replicate_succ, List.getElem?_replicate]
  split_ifs <;> rfl

theorem foldl_invariant_const (g : ℚ → ℕ → ℚ) (hg : ∀ b i, g b i = b) :
    ∀ (l : List ℕ) (b : ℚ), l.foldl g b = b := by
  intro l
  induction l with
  | nil => intro b; rfl
  | cons x xs ih => intro b; rw [List.foldl_cons, hg, ih]

/-- On an always-zero position series every order and commission is zero, the
budget loop leaves the running budget at the truncated initial budget, and
`returns` divides it by the *untruncated* initial budget. -/
theorem returnsCalc_zero_positions (n lb : ℕ) (c1 c2 : List ℚ) :
    returnsCalc (List.replicate n (0, 0)) c1 c2 lb =
      _truncate (1000 * (c1.headD 0 + c2.headD 0)) 2 /
        (1000 * (c1.headD 0 + c2.headD 0)) - 1 := by
  simp only [returnsCalc]
  rw [roundedPositions_replicate_zero, List.map_replicate, List.map_replicate]
  rw [show (((0 : ℚ), (0 : ℚ)).1) = (0 : ℚ) from rfl,
    show (((0 : ℚ), (0 : ℚ)).2) = (0 : ℚ) from rfl]
  rw [ordersOf_replicate_zero]
  rw [show ((0 : ℚ) :: List.replicate (n - 1) 0).map commission =
      (0 : ℚ) :: List.replicate (n - 1) 0 from by
    rw [List.map_cons, List.map_replicate, commission_zero_eval]]
  rw [foldl_invariant_const _ (by
    intro b i
    rw [getD_zero_cons_replicate_zero]
    ring)]

/-- C4 (counterexample): with first closes `1.000001` and `2`, the initial
budget is `3000.001`; on an always-zero-position strategy the engine returns
`truncate(3000.001, 2) / 3000.001 - 1 = -1/3000001`, not exactly `0`, because
the running budget starts from the truncated initial budget while the final
division is by the untruncated one. -/
theorem returns_zero_positions_not_exact_zero :
    returnsCalc (List.replicate 2 ((0 : ℚ), (0 : ℚ))) [1000001 / 1000000, 1]
      [2, 1] 1 ≠ 0 := by
  rw [returnsCalc_zero_positions]
  simp only [List.headD_cons]
  rw [show (1000 : ℚ) * (1000001 / 1000000 + 2) = 3000001 / 1000 by norm_num]
  rw [_truncate_eval_nonneg (3000001 / 1000) 2 300000 (by norm_num) (by norm_num)
    (by norm_num)]
  norm_num

/-- C4 (amended): `returns()` starts the running budget from the initial
budget truncated to 2 decimal places but divides the final budget by the
*untruncated* initial budget, so an always-zero-position strategy returns
`truncate(init, 2)/init - 1`; this is exactly `0` precisely when the initial
budget already needs at most 2 decimal places (e.g. 2-decimal prices), not
for every price series. -/
theorem returns_zero_positions_truncation_residual (n lb : ℕ) (c1 c2 : List ℚ) :
    returnsCalc (List.replicate n (0, 0)) c1 c2 lb =
      _truncate (1000 * (c1.headD 0 + c2.headD 0)) 2 /
        (1000 * (c1.headD 0 + c2.headD 0)) - 1 ∧
    (1000 * (c1.headD 0 + c2.headD 0) ≠ 0 →
      (∃ k : ℤ, 1000 * (c1.headD 0 + c2.headD 0) = (k : ℚ) / 100) →
      returnsCalc (List.replicate n (0, 0)) c1 c2 lb = 0) := by
  refine ⟨returnsCalc_zero_positions n lb c1 c2, ?_⟩
  rintro hne ⟨k, hk⟩
  rw [returnsCalc_zero_positions n lb c1 c2, hk, _truncate_int_div_100,
    div_self (by rw [← hk]; exact hne), sub_self]

theorem returns_zero_positions_truncation_residual_witness :
    returnsCalc (List.replicate 1 ((0 : ℚ), (0 : ℚ))) [1] [2] 0 = 0 :=
  (returns_zero_positions_truncation_residual 1 0 [1] [2]).2
    (by simp only [List.headD_cons]; norm_num)
    ⟨300000, by simp only [List.headD_cons]; norm_num⟩

/-- C10: the rounding loop of `returns()` stops one row before the end
(`range(self.lookback, n - 1)`), so the integer position at the final aligned
date is forced to the zero vector whatever `positions()` says there; and since
the budget loop also stops one date early (`range(0, len(orders) - 1)`), the
realized return is unchanged when `positions()` is altered at the last date
only. -/
theorem returns_ignores_last_date (pos pos' : List (ℚ × ℚ)) (c1 c2 : List ℚ)
    (lb : ℕ) (hlen : pos'.length = pos.length)
    (hag : ∀ i, i + 1 < pos.length → pos[i]? = pos'[i]?) :
    (pos ≠ [] → (roundedPositions pos lb)[pos.length - 1]? = some (0, 0)) ∧
    returnsCalc pos c1 c2 lb = returnsCalc pos' c1 c2 lb := by
  have hrp : roundedPositions pos lb = roundedPositions pos' lb := by
    apply List.ext_getElem?
    intro j
    unfold roundedPositions
    rw [hlen]
    rw [fillRows_getElem? _ _ _ _ _ (Nat.zero_le _) j,
      fillRows_getElem? _ _ _ _ _ (Nat.zero_le _) j]
    split_ifs with hc
    · have hj : j + 1 < pos.length := by
        rw [List.length_replicate] at hc
        omega
      simp only
      rw [List.getD_eq_getElem?_getD, List.getD_eq_getElem?_getD,
        Nat.add_zero, hag j hj]
    · rfl
  constructor
  · intro hne
    have hn : 0 < pos.length := List.length_pos.mpr hne
    unfold roundedPositions
    rw [fillRows_getElem? _ _ _ _ _ (Nat.zero_le _) (pos.length - 1),
      if_neg (by rw [List.length_replicate]; omega),
      List.getElem?_replicate, if_pos (by omega)]
  · simp only [returnsCalc]
    rw [hrp]

theorem returns_ignores_last_date_witness :
    (([((1 : ℚ), (1 : ℚ)), ((2 : ℚ), (2 : ℚ))] ≠ ([] : List (ℚ × ℚ))) →
      (roundedPositions [((1 : ℚ), (1 : ℚ)), ((2 : ℚ), (2 : ℚ))] 0)[
        ([((1 : ℚ), (1 : ℚ)), ((2 : ℚ), (2 : ℚ))] : List (ℚ × ℚ)).length - 1]? =
        some (0, 0)) ∧
    returnsCalc [((1 : ℚ), (1 : ℚ)), ((2 : ℚ), (2 : ℚ))] [1, 2] [1, 1] 0 =
      returnsCalc [((1 : ℚ), (1 : ℚ)), ((5 : ℚ), (7 : ℚ))] [1, 2] [1, 1] 0 :=
  returns_ignores_last_date [(1, 1), (2, 2)] [(1, 1), (5, 7)] [1, 2] [1, 1] 0
    rfl
    (by
      intro i hi
      have h2 : i + 1 < 2 := by simpa using hi
      have h0 : i = 0 := by omega
      rw [h0]
      rfl)

theorem cumprodM_getElem?_some (xs : List (Option ℚ)) :
    ∀ (acc : ℚ) (j : ℕ) (v : ℚ), xs[j]? = some (some v) →
      (cumprodM xs acc)[j]? = some (some (acc * prodA (xs.take (j + 1)))) := by
  induction xs with
  | nil =>
    intro acc j v h
    simp at h
  | cons x xs ih =>
    intro acc j v h
    cases x with
    | none =>
      cases j with
      | zero => simp at h
      | succ j =>
        have h' : xs[j]? = some (some v) := by simpa using h
        simp only [cumprodM, List.getElem?_cons_succ]
        rw [ih acc j v h', List.take_succ_cons, prodA]
    | some w =>
      cases j with
      | zero =>
        have hv : w = v := by simpa using h
        subst hv
        simp only [cumprodM, List.getElem?_cons_zero, List.take_succ_cons, prodA,
          List.take_zero]
        rw [mul_one]
      | succ j =>
        have h' : xs[j]? = some (some v) := by simpa using h
        simp only [cumprodM, List.getElem?_cons_succ]
        rw [ih (acc * w) j v h', List.take_succ_cons, prodA, mul_assoc]

theorem ffill_getElem?_some (l : List (Option ℚ)) :
    ∀ (last : Option ℚ) (j : ℕ) (v : ℚ), l[j]? = some (some v) →
      (ffill l last)[j]? = some (some v) := by
  induction l with
  | nil =>
    intro last j v h
    simp at h
  | cons x xs ih =>
    intro last j v h
    cases x with
    | some w =>
      cases j with
      | zero =>
        have hv : w = v := by simpa using h
        subst hv
        simp only [ffill, List.getElem?_cons_zero]
      | succ j =>
        have h' : xs[j]? = some (some v) := by simpa using h
        simp only [ffill, List.getElem?_cons_succ]
        exact ih (some w) j v h'
    | none =>
      cases j with
      | zero => simp at h
      | succ j =>
        have h' : xs[j]? = some (some v) := by simpa using h
        simp only [ffill, List.getElem?_cons_succ]
        exact ih last j v h'

theorem prodA_map_one_add (l : List (Option ℚ)) :
    prodA (l.map (fun r => madd (some 1) r)) = availProd l := by
  induction l with
  | nil => rfl
  | cons x xs ih =>
    cases x with
    | none =>
      rw [List.map_cons, show madd (some 1) none = (none : Option ℚ) from rfl]
      simp only [prodA, availProd]
      exact ih
    | some v =>
      rw [List.map_cons, show madd (some 1) (some v) = some (1 + v) from rfl]
      simp only [prodA, availProd]
      rw [ih]

/-- C3 (amended): at every date whose theoretical return is available, the
cumulative return equals the running product `Π(1+r) - 1` taken over the
available entries up to that date: `Series.cumprod(skipna=True)` keeps each
unavailable entry in place and skips it in the accumulation, and the forward
fill then carries earlier available cumulative values into the skipped
places; but the leading unavailable entries — in particular the
always-unavailable first date — are never filled, since forward-fill has no
earlier value, and remain the sentinel; no error is raised. -/
theorem cum_returns_running_product_over_available (pos : List (ℚ × ℚ))
    (c1 c2 : List ℚ) (h1 : c1.length = pos.length) (h2 : c2.length = pos.length) :
    (pos ≠ [] → (cum_returns pos c1 c2)[0]? = some none) ∧
    (∀ (j : ℕ) (r : ℚ), (th_returns pos c1 c2)[j]? = some (some r) →
      (cum_returns pos c1 c2)[j]? =
        some (some (availProd ((th_returns pos c1 c2).take (j + 1)) - 1))) := by
  constructor
  · intro hne
    obtain ⟨p, ps, rfl⟩ := List.exists_cons_of_ne_nil hne
    obtain ⟨q, qs, rfl⟩ := List.exists_cons_of_ne_nil
      (show c1 ≠ [] from fun h => by rw [h] at h1; simp at h1)
    obtain ⟨r, rs, rfl⟩ := List.exists_cons_of_ne_nil
      (show c2 ≠ [] from fun h => by rw [h] at h2; simp at h2)
    obtain ⟨t, ht⟩ : ∃ t, th_returns (p :: ps) (q :: qs) (r :: rs) = none :: t :=
      ⟨_, rfl⟩
    simp only [cum_returns]
    rw [ht, List.map_cons, show madd (some 1) none = (none : Option ℚ) from rfl]
    simp only [cumprodM, List.map_cons,
      show msub none (some 1) = (none : Option ℚ) from rfl, ffill,
      List.getElem?_cons_zero]
  · intro j r hj
    simp only [cum_returns]
    have hx : ((th_returns pos c1 c2).map (fun r => madd (some 1) r))[j]? =
        some (some (1 + r)) := by
      rw [List.getElem?_map, hj]
      rfl
    have hcp := cumprodM_getElem?_some
      ((th_returns pos c1 c2).map (fun r => madd (some 1) r)) 1 j (1 + r) hx
    have hms : ((cumprodM ((th_returns pos c1 c2).map (fun r => madd (some 1) r))
          1).map (fun x => msub x (some 1)))[j]? =
        some (some (1 * prodA (((th_returns pos c1 c2).map
          (fun r => madd (some 1) r)).take (j + 1)) - 1)) := by
      rw [List.getElem?_map, hcp]
      rfl
    rw [ffill_getElem?_some _ none j _ hms, one_mul, ← List.map_take,
      prodA_map_one_add]

theorem cum_returns_running_product_over_available_witness :
    (cum_returns [((1 : ℚ), (1 : ℚ)), (1, 1), (1, 1)] [1, 2, 4] [1, 1, 1])[1]? =
      some (some (availProd ((th_returns [((1 : ℚ), (1 : ℚ)), (1, 1), (1, 1)]
        [1, 2, 4] [1, 1, 1]).take 2) - 1)) :=
  (cum_returns_running_product_over_available [(1, 1), (1, 1), (1, 1)] [1, 2, 4]
    [1, 1, 1] rfl rfl).2 1 (1 / 2)
    (by
      simp only [th_returns, shiftOpt, pctChange, List.zip_cons_cons,
        List.zipWith_cons_cons, List.dropLast_cons_of_ne_nil, List.map_cons,
        List.tail_cons, List.zipWith_nil_right, List.dropLast_single,
        List.map_nil, List.zip_nil_right, List.zipWith_nil_left]
      norm_num [madd, mmul, mdiv, msub, Option.map])

/-- C3 (counterexample): on a 4-day series the theoretical returns are
`[NaN, 1/2, NaN, 4/5]`; the code yields cumulative returns
`[NaN, 1/2, 1/2, 17/10]` — the interior unavailable entry is forward-filled
and the tail carries the product over available entries — but the leading
unavailable entry stays the sentinel even though available cumulative values
exist from day 1 on, so the leading entries are *not* forward-filled from the
first available cumulative value as the claim states. -/
theorem cum_returns_leading_sentinel_counterexample :
    th_returns [(1, 1), (0, 0), (1, 1), (1, 1)] [1, 2, 4, 8] [1, 1, 1, 1] =
      [none, some (1 / 2), none, some (4 / 5)] ∧
    cum_returns [(1, 1), (0, 0), (1, 1), (1, 1)] [1, 2, 4, 8] [1, 1, 1, 1] =
      [none, some (1 / 2), some (1 / 2), some (17 / 10)] ∧
    (cum_returns [(1, 1), (0, 0), (1, 1), (1, 1)] [1, 2, 4, 8] [1, 1, 1, 1])[0]? =
      some none ∧
    (none : Option ℚ) ≠ some (1 / 2) := by
  have hth : th_returns [((1 : ℚ), (1 : ℚ)), (0, 0), (1, 1), (1, 1)]
      [1, 2, 4, 8] [1, 1, 1, 1] = [none, some (1 / 2), none, some (4 / 5)] := by
    simp only [th_returns, shiftOpt, pctChange, List.zip_cons_cons,
      List.zipWith_cons_cons, List.dropLast_cons_of_ne_nil, List.map_cons,
      List.tail_cons, List.zipWith_nil_right, List.dropLast_single,
      List.map_nil, List.zip_nil_right, List.zipWith_nil_left]
    norm_num [madd, mmul, mdiv, msub, Option.map]
  have hcum : cum_returns [((1 : ℚ), (1 : ℚ)), (0, 0), (1, 1), (1, 1)]
      [1, 2, 4, 8] [1, 1, 1, 1] =
      [none, some (1 / 2), some (1 / 2), some (17 / 10)] := by
    simp only [cum_returns]
    rw [hth]
    simp only [List.map_cons, List.map_nil, madd, msub, cumprodM, ffill]
    norm_num
  refine ⟨hth, hcum, ?_, by simp⟩
  rw [hcum]
  rfl

end Radium
